import Mathlib

/-!
Verification of the transcript-to-record extraction engine of the
ExpenseRecorderApp repository (src/src/services/parsingLogic.js).

The JavaScript source is shallowly embedded: JS strings become `List Char`
(written `Str`), regular-expression searches become hand-rolled leftmost-match
functions with the exact backtracking behaviour of the concrete patterns used
by the source, and the module-level cached reference lists become explicit
parameters (plus an explicit state-passing variant used to state purity).
Numeric match scores (JS floating point numbers whose values here are always
small rationals such as `overlap / tokenCount` and the thresholds `0.3` and
`0.25`) are modelled as `ℚ`; character case mapping is modelled on the ASCII
range, which covers every character class and literal the source inspects.
`new Date()` is modelled by an explicit `SimpleDate` argument standing for the
current local calendar date.
-/

/-- JS strings are modelled as lists of characters. -/
abbrev Str := List Char

namespace ExpenseParsing

/-! ## Character classes used by the source's regular expressions -/

/-- ASCII digit, the `\d` class. -/
def isDigitC (c : Char) : Bool := 48 ≤ c.toNat && c.toNat ≤ 57

/-- JS `\w`: ASCII letter, digit or underscore (used for `\b` boundaries). -/
def isWordC (c : Char) : Bool :=
  isDigitC c || (65 ≤ c.toNat && c.toNat ≤ 90) || (97 ≤ c.toNat && c.toNat ≤ 122) || c == '_'

/-- JS `\s` (restricted to the ASCII whitespace the app can see). -/
def isWsC (c : Char) : Bool :=
  c == ' ' || c == '\t' || c == '\n' || c == '\r' || c == '\x0b' || c == '\x0c'

/-- The `[\s:,-]` separator class used by the window-cleanup replaces. -/
def isSepC (c : Char) : Bool := isWsC c || c == ':' || c == ',' || c == '-'

/-- The `[\s:,-.]` class (category window: trailing separators and periods). -/
def isSepDotC (c : Char) : Bool := isSepC c || c == '.'

/-- The `[\d,]` class of the amount patterns. -/
def isDigitCommaC (c : Char) : Bool := isDigitC c || c == ','

/-- Lowercase ASCII letter or digit: the `[a-z0-9]` class of the normalizer. -/
def isLowerAlnumC (c : Char) : Bool := isDigitC c || (97 ≤ c.toNat && c.toNat ≤ 122)

/-- Dash or forward slash: the date-separator class of the date patterns. -/
def isDateSepC (c : Char) : Bool := c == '-' || c == '/'

/-! ## Basic string operations -/

/-- ASCII lowercasing of one character, as done by `toLowerCase()` on the
characters this code inspects. -/
def lowerC (c : Char) : Char := c.toLower

/-- The `String.prototype.toLowerCase`. -/
def toLowerStr (s : Str) : Str := s.map lowerC

/-- Strip a leading run of characters satisfying `p`
(the `replace(/^[class]+/, "")` idiom). -/
def stripLeadingP (p : Char → Bool) (s : Str) : Str := s.dropWhile p

/-- Strip a trailing run of characters satisfying `p`
(the `replace(/[class]+$/, "")` idiom). -/
def stripTrailingP (p : Char → Bool) (s : Str) : Str :=
  (s.reverse.dropWhile p).reverse

/-- The `String.prototype.trim` (whitespace from both ends). -/
def trimStr (s : Str) : Str := stripLeadingP isWsC (stripTrailingP isWsC s)

/-- The cleanup applied to every extracted window:
`.replace(/^[\s:,-]+/i, "").replace(/[\s:,-]+$/i, "").trim()`. -/
def cleanSeps (s : Str) : Str :=
  trimStr (stripTrailingP isSepC (stripLeadingP isSepC s))

/-- The category-window variant whose trailing class also strips periods:
`.replace(/^[\s:,-]+/i, "").replace(/[\s:,-.]+$/i, "").trim()`. -/
def cleanSepsDot (s : Str) : Str :=
  trimStr (stripTrailingP isSepDotC (stripLeadingP isSepC s))

/-- The `String.prototype.indexOf`: index of the first occurrence of `pat`,
`none` standing for JS `-1`. -/
def indexOfStr (s pat : Str) : Option Nat :=
  if pat.isPrefixOf s then some 0
  else
    match s with
    | [] => none
    | _ :: rest => (indexOfStr rest pat).map (· + 1)

/-- The `String.prototype.includes`. -/
def includesStr (s pat : Str) : Bool := (indexOfStr s pat).isSome

/-- The `String.prototype.padStart(2, "0")`. -/
def padStart2 (s : Str) : Str :=
  if 2 ≤ s.length then s else List.replicate (2 - s.length) '0' ++ s

/-- JS `x || "fallback"` on strings collapses the empty string. -/
def orEmpty (s : Str) : Str := if s = [] then [] else s

/-- The `Math.min` lifted to the two optional keyword indices
(the `categoryIdx !== -1 && descriptionIdx !== -1` ladder). -/
def minOpt : Option Nat → Option Nat → Option Nat
  | some a, some b => some (min a b)
  | some a, none => some a
  | none, some b => some b
  | none, none => none

/-! ## Normalizer and tokenizer (`normalizeForMatch`, `textTokens`, `stemToken`) -/

/-- Replace every maximal run of non-`[a-z0-9]` characters by a single space
(the `replace(/[^a-z0-9]+/g, " ")` step); the flag records whether the
previous character was part of such a run. -/
def collapseAux : Bool → Str → Str
  | _, [] => []
  | inRun, c :: rest =>
    if isLowerAlnumC c then c :: collapseAux false rest
    else if inRun then collapseAux true rest
    else ' ' :: collapseAux true rest

/-- The `normalizeForMatch`: lowercase, collapse non-alphanumeric runs to single
spaces, trim. -/
def normalizeForMatch (s : Str) : Str := trimStr (collapseAux false (toLowerStr s))

/-- The `stemToken`: the lightweight plural stemmer. -/
def stemToken (tok : Str) : Str :=
  if 4 < tok.length && List.isSuffixOf ("ies".toList) tok then
    tok.take (tok.length - 3) ++ ['y']
  else if 3 < tok.length && List.isSuffixOf ("es".toList) tok then
    tok.take (tok.length - 2)
  else if 3 < tok.length && List.isSuffixOf ("s".toList) tok then
    tok.take (tok.length - 1)
  else tok

/-- Split on maximal whitespace runs and drop empty pieces
(`split(/\s+/).filter(Boolean)`); the accumulator holds the current word
reversed. -/
def wordsByAux (p : Char → Bool) : Str → Str → List Str
  | [], cur => if cur = [] then [] else [cur.reverse]
  | c :: rest, cur =>
    if p c then
      if cur = [] then wordsByAux p rest [] else cur.reverse :: wordsByAux p rest []
    else wordsByAux p rest (c :: cur)

/-- Nonempty maximal runs of characters not satisfying `p`. -/
def wordsBy (p : Char → Bool) (s : Str) : List Str := wordsByAux p s []

/-- The `textTokens`: normalize, split on whitespace, drop empties, stem. -/
def textTokens (s : Str) : List Str :=
  ((wordsBy isWsC (normalizeForMatch s)).map stemToken)

/-- The `String.prototype.split(" ")` (single-character separator, no regex). -/
def splitOnChar (sep : Char) : Str → List Str
  | [] => [[]]
  | c :: rest =>
    let r := splitOnChar sep rest
    if c == sep then [] :: r
    else
      match r with
      | h :: t => (c :: h) :: t
      | [] => [[c]]

/-! ## Fuzzy matcher (`bestMatchFromList`) -/

/-- The body of the `for (const candidate of candidates)` loop of
`bestMatchFromList`: `nt` is the normalized transcript, `tks` its stemmed
token set, and the accumulator carries `(best, bestScore)`. Candidates with
empty normalization are skipped; the score is the phrase-containment score
boosted by the token-overlap score (note that the candidate's tokens,
`candidateNorm.split(" ").filter(Boolean)`, are not stemmed); a strictly
greater score replaces the best. Match scores are JS numbers, modelled as
`ℚ`. -/
def bestMatchStep (nt : Str) (tks : List Str) (acc : Str × ℚ) (candidate : Str) :
    Str × ℚ :=
  let cn := normalizeForMatch candidate
  if cn = [] then acc
  else
    let score0 : ℚ := if includesStr nt cn then 1 else 0
    let ct := (splitOnChar ' ' cn).filter (fun w => w ≠ [])
    let score :=
      if ct.length ≠ 0 then
        max score0
          (((ct.filter (fun tok => tks.contains tok)).length : ℚ) / (ct.length : ℚ))
      else score0
    if acc.2 < score then (candidate, score) else acc

/-- The `bestMatchFromList(transcript, candidates, minScore)`: run the candidate
loop, then return the best candidate if its score clears `minScore ?? 0.3`,
else `""`. -/
def bestMatchFromList (transcript : Str) (candidates : List Str)
    (minScore : Option ℚ) : Str :=
  let nt := normalizeForMatch transcript
  if nt = [] then []
  else
    let tks := textTokens transcript
    let r := candidates.foldl (bestMatchStep nt tks) ([], 0)
    if (minScore.getD ((3 : ℚ) / 10)) ≤ r.2 then r.1 else []

/-! ## Leftmost regex matching

Each concrete pattern of the source is embedded as a local matcher that
decides a match attempt at one position (given the previous character, for
`\b`), plus the generic leftmost scan `scanFirst` implementing
`String.prototype.match`'s leftmost-match rule. The greedy/backtracking
behaviour of each concrete pattern is compiled away by hand; comments on each
local matcher record why no further backtracking can succeed. -/

/-- Word-character test for an optional character (`\b` at the string ends). -/
def optWord : Option Char → Bool
  | none => false
  | some c => isWordC c

/-- The `\b` between a consumed character `c` and the unconsumed rest. -/
def afterB (c : Char) (rest : Str) : Bool := isWordC c != optWord rest.head?

/-- The `\b` between the last character of consumed capture `g` and the rest. -/
def afterBStr (g : Str) (rest : Str) : Bool :=
  match g.reverse with
  | [] => false
  | c :: _ => afterB c rest

/-- Leftmost match: try the local matcher at each position from the left,
carrying the previous character for `\b` tests. -/
def scanFirst {α : Type} (f : Option Char → Str → Option α) :
    Option Char → Str → Option α
  | prev, [] => f prev []
  | prev, c :: rest =>
    match f prev (c :: rest) with
    | some r => some r
    | none => scanFirst f (some c) rest

/-! ## Amount extractor (`extractExpenseAmount`) -/

/-- Local matcher for pattern 1,
the verbal form `\b([\d,]+)\s+dollars?(?:\s+and\s+(\d+)\s+cents?)?`.
All adjacent sub-patterns have disjoint character classes (digits/commas vs
whitespace vs letters), so the greedy runs never need to backtrack, and the
optional cents group starts with `\s+` so it can never consume the optional
`s` of `dollars?`. -/
def p1centsGroup (s : Str) : Option Str :=
  let w1 := s.takeWhile isWsC
  if w1 = [] then none
  else
    let s1 := s.drop w1.length
    if ("and".toList).isPrefixOf s1 then
      let s2 := s1.drop 3
      let w2 := s2.takeWhile isWsC
      if w2 = [] then none
      else
        let s3 := s2.drop w2.length
        let ds := s3.takeWhile isDigitC
        if ds = [] then none
        else
          let s4 := s3.drop ds.length
          let w3 := s4.takeWhile isWsC
          if w3 = [] then none
          else
            let s5 := s4.drop w3.length
            if ("cent".toList).isPrefixOf s5 then some ds else none
    else none

/-- See `p1centsGroup`. Captures: the dollars run and the optional cents. -/
def p1local (prev : Option Char) (s : Str) : Option (Str × Option Str) :=
  match s with
  | [] => none
  | c :: _ =>
    if isDigitCommaC c && (optWord prev != isWordC c) then
      let run := s.takeWhile isDigitCommaC
      let s1 := s.drop run.length
      let ws := s1.takeWhile isWsC
      if ws = [] then none
      else
        let s2 := s1.drop ws.length
        if ("dollar".toList).isPrefixOf s2 then
          let s3 := s2.drop 6
          let s4 := if s3.head? == some 's' then s3.drop 1 else s3
          match p1centsGroup s4 with
          | some g2 => some (run, some g2)
          | none => some (run, none)
        else none
    else none

/-- Local matcher for pattern 2, `\b(\d+)\s+cents?\b`. The trailing `\b`
forces the `s?` decision: if an `s` follows `cent` the no-`s` reading puts the
boundary between two word characters and always fails. -/
def p2local (prev : Option Char) (s : Str) : Option Str :=
  match s with
  | [] => none
  | c :: _ =>
    if isDigitC c && (optWord prev != isWordC c) then
      let ds := s.takeWhile isDigitC
      let s1 := s.drop ds.length
      let ws := s1.takeWhile isWsC
      if ws = [] then none
      else
        let s2 := s1.drop ws.length
        if ("cent".toList).isPrefixOf s2 then
          let s3 := s2.drop 4
          if s3.head? == some 's' then
            if afterB 's' (s3.drop 1) then some ds else none
          else if afterB 't' s3 then some ds
          else none
        else none
    else none

/-- Local matcher for patterns 3 and 5, `\$(<run>)(?:\.(\d{1,2}))?` where the
run class is `[\d,]` (pattern 3) or `\d` (pattern 5). No boundaries, so the
greedy run and the greedy 2-then-1 fractional digits are final. -/
def pDollarLocal (cls : Char → Bool) (_prev : Option Char) (s : Str) :
    Option (Str × Option Str) :=
  match s with
  | [] => none
  | c :: rest =>
    if c == '$' then
      let run := rest.takeWhile cls
      if run = [] then none
      else
        let s1 := rest.drop run.length
        match s1 with
        | '.' :: r2 =>
          let ds := (r2.takeWhile isDigitC).take 2
          if ds = [] then some (run, none) else some (run, some ds)
        | _ => some (run, none)
    else none

/-- Backtracking for the trailing `\b` of pattern 4: try ever shorter
nonempty prefixes of the class run (first argument reversed) until the
boundary after the prefix holds. -/
def tryEndsRev : Str → Str → Option Str
  | [], _ => none
  | c :: rp, rest =>
    if afterB c rest then some ((c :: rp).reverse) else tryEndsRev rp (c :: rest)

/-- Local matcher for pattern 4, `\b([\d,]+)(?:\.(\d{1,2}))?\b`. Preference
order of the regex engine: full run with two fractional digits, then one,
then no fractional group, then shorter runs (for which the character after
the prefix is in `[\d,]`, so the fractional group cannot re-engage). -/
def p4local (prev : Option Char) (s : Str) : Option (Str × Option Str) :=
  match s with
  | [] => none
  | c :: _ =>
    if isDigitCommaC c && (optWord prev != isWordC c) then
      let run := s.takeWhile isDigitCommaC
      let s1 := s.drop run.length
      let withFrac : Option (Str × Option Str) :=
        match s1 with
        | '.' :: r2 =>
          let ds := r2.takeWhile isDigitC
          if 2 ≤ ds.length && afterBStr (ds.take 2) (r2.drop 2) then
            some (run, some (ds.take 2))
          else if 1 ≤ ds.length && afterBStr (ds.take 1) (r2.drop 1) then
            some (run, some (ds.take 1))
          else none
        | _ => none
      match withFrac with
      | some r => some r
      | none => (tryEndsRev run.reverse s1).map (fun pre => (pre, none))
    else none

/-- Pattern 1 search: `text.match(/\b([\d,]+)\s+dollars?(?:\s+and\s+(\d+)\s+cents?)?/)`. -/
def matchDollarsPattern (text : Str) : Option (Str × Option Str) :=
  scanFirst p1local none text

/-- Pattern 2 search: `text.match(/\b(\d+)\s+cents?\b/)`. -/
def matchCentsOnly (text : Str) : Option Str :=
  scanFirst p2local none text

/-- Pattern 3 search: `text.match(/\$([\d,]+)(?:\.(\d{1,2}))?/)`. -/
def matchDollarSignWithCommas (text : Str) : Option (Str × Option Str) :=
  scanFirst (pDollarLocal isDigitCommaC) none text

/-- Pattern 4 search: `text.match(/\b([\d,]+)(?:\.(\d{1,2}))?\b/)`. -/
def matchNumberWithCommas (text : Str) : Option (Str × Option Str) :=
  scanFirst p4local none text

/-- Pattern 5 search: `text.match(/\$(\d+)(?:\.(\d{1,2}))?/)`. -/
def matchDollarSignPlain (text : Str) : Option (Str × Option Str) :=
  scanFirst (pDollarLocal isDigitC) none text

/-- Normalization of an optional 1-2 digit fractional capture: pad a single
digit with a trailing zero, default to `"00"`. -/
def centsOf : Option Str → Str
  | none => ['0', '0']
  | some g2 => if g2.length = 1 then g2 ++ ['0'] else g2

/-- The `parseInt` of an all-digit capture (used only for the `>= 10` guard;
the empty string, JS `NaN`, fails the guard). -/
def strToNat (s : Str) : Nat := s.foldl (fun a c => 10 * a + (c.toNat - 48)) 0

/-- Pattern 5 step: result of the plain dollar-sign branch at the end of
`extractExpenseAmount` (reached both when pattern 4 fails to match and when
its comma-or-`>=10` guard rejects the match). -/
def amountFromP5 (text : Str) : Str :=
  match matchDollarSignPlain text with
  | some (g1, g2o) => g1 ++ '.' :: centsOf g2o
  | none => []

/-- The five-pattern chain of `extractExpenseAmount` applied to the lowercased
search text (`const text = searchTextLower` onward). -/
def amountPatterns (text : Str) : Str :=
  match matchDollarsPattern text with
  | some (g1, g2o) =>
    let dollars := g1.filter (fun c => c != ',')
    let cents := match g2o with
      | some g2 => padStart2 g2
      | none => ['0', '0']
    dollars ++ '.' :: cents
  | none =>
  match matchCentsOnly text with
  | some g1 => '0' :: '.' :: (padStart2 g1).take 2
  | none =>
  match matchDollarSignWithCommas text with
  | some (g1, g2o) => g1.filter (fun c => c != ',') ++ '.' :: centsOf g2o
  | none =>
  match matchNumberWithCommas text with
  | some (g1, g2o) =>
    let numberStr := g1.filter (fun c => c != ',')
    if g1.contains ',' || (numberStr ≠ [] && 10 ≤ strToNat numberStr) then
      numberStr ++ '.' :: centsOf g2o
    else amountFromP5 text
  | none => amountFromP5 text

/-- The keyword slicing shared by the card and amount extractors: offset just
past the first `"charge"`, and the offset of the next `"category"` or
`"description"` within the text after it. -/
def chargeK : Str := "charge".toList

/-- The `"category"` keyword. -/
def categoryK : Str := "category".toList

/-- The `"description"` keyword. -/
def descriptionK : Str := "description".toList

/-- The `"category is"` keyword. -/
def categoryIsK : Str := "category is".toList

/-- The `"description is"` keyword. -/
def descriptionIsK : Str := "description is".toList

/-- The `extractExpenseAmount(transcript)`: slice the charge window, clean it,
fall back to the whole transcript when empty, then run the pattern chain. -/
def extractExpenseAmount (transcript : Str) : Str :=
  if transcript = [] then []
  else
    let lower := toLowerStr transcript
    match indexOfStr lower chargeK with
    | none => amountPatterns lower
    | some ci =>
      let chargeOffset := ci + chargeK.length
      let afterCharge := lower.drop chargeOffset
      let nextKeywordOffset :=
        match minOpt (indexOfStr afterCharge categoryK) (indexOfStr afterCharge descriptionK) with
        | some o => o
        | none => afterCharge.length
      let amountText := (transcript.drop chargeOffset).take nextKeywordOffset
      let cleanedAmountText := cleanSeps amountText
      if cleanedAmountText = [] then amountPatterns lower
      else amountPatterns (toLowerStr cleanedAmountText)

/-! ## Card-name extractor (`extractCardName`)

The module-level cached account-name list (`getCachedAccountNames`) is made an
explicit parameter. -/

/-- The `extractCardName(transcript)` with the cached account names explicit. -/
def extractCardName (cardNames : List Str) (transcript : Str) : Str :=
  if transcript = [] then []
  else
    let lower := toLowerStr transcript
    match indexOfStr lower chargeK with
    | none => bestMatchFromList transcript cardNames (some ((3 : ℚ) / 10))
    | some ci =>
      let chargeOffset := ci + chargeK.length
      let afterCharge := lower.drop chargeOffset
      match minOpt (indexOfStr afterCharge categoryK) (indexOfStr afterCharge descriptionK) with
      | none =>
        let cardText := cleanSeps (transcript.drop chargeOffset)
        if cardText = [] then bestMatchFromList transcript cardNames (some ((3 : ℚ) / 10))
        else bestMatchFromList cardText cardNames (some ((3 : ℚ) / 10))
      | some nextKeywordOffset =>
        let cardText := (transcript.drop chargeOffset).take nextKeywordOffset
        let cleanedCardText := cleanSeps cardText
        if cleanedCardText = [] then
          bestMatchFromList transcript cardNames (some ((3 : ℚ) / 10))
        else
          orEmpty (bestMatchFromList cleanedCardText cardNames (some ((3 : ℚ) / 10)))

/-! ## Category extractor (`extractExpenseCategory`) -/

/-- The `extractExpenseCategory(transcript)` with the cached category list
explicit. -/
def extractExpenseCategory (categories : List Str) (transcript : Str) : Str :=
  if transcript = [] then []
  else
    let lower := toLowerStr transcript
    let categoryOffset? : Option Nat :=
      match indexOfStr lower categoryIsK with
      | some i => some (i + categoryIsK.length)
      | none => (indexOfStr lower categoryK).map (· + categoryK.length)
    match categoryOffset? with
    | none => bestMatchFromList transcript categories (some ((1 : ℚ) / 4))
    | some categoryOffset =>
      let afterCategoryStart := lower.drop categoryOffset
      let descriptionOffset? : Option Nat :=
        match indexOfStr afterCategoryStart descriptionIsK with
        | some i => some i
        | none => indexOfStr afterCategoryStart descriptionK
      match descriptionOffset? with
      | none =>
        let categoryText := cleanSeps (transcript.drop categoryOffset)
        if categoryText = [] then
          bestMatchFromList transcript categories (some ((1 : ℚ) / 4))
        else
          let matched := bestMatchFromList categoryText categories (some ((1 : ℚ) / 4))
          if matched = [] then categoryText else matched
      | some descriptionOffset =>
        let categoryText := (transcript.drop categoryOffset).take descriptionOffset
        let cleanedCategoryText := cleanSepsDot categoryText
        if cleanedCategoryText = [] then
          bestMatchFromList transcript categories (some ((1 : ℚ) / 4))
        else
          let matched := bestMatchFromList cleanedCategoryText categories (some ((1 : ℚ) / 4))
          if matched ≠ [] then matched else cleanedCategoryText

/-! ## Description extractor (`extractDescription`) -/

/-- The `extractDescription(transcript)`: everything after `"description is"`
(preferred) or `"description"` in the original-case transcript, leading
separators stripped, then `trim()`ed. -/
def extractDescription (transcript : Str) : Str :=
  if transcript = [] then []
  else
    let lower := toLowerStr transcript
    let offset? : Option Nat :=
      match indexOfStr lower descriptionIsK with
      | some i => some (i + descriptionIsK.length)
      | none => (indexOfStr lower descriptionK).map (· + descriptionK.length)
    match offset? with
    | none => []
    | some offset => trimStr (stripLeadingP isSepC (transcript.drop offset))

/-! ## Date extractor (`extractDate`)

`new Date()` is modelled by an explicit `SimpleDate` (the current local
calendar date); the source's `now - 24h` for `"yesterday"` is modelled as the
previous calendar day. -/

/-- A calendar date as produced by `getFullYear`/`getMonth() + 1`/`getDate`. -/
structure SimpleDate where
  year : Nat
  month : Nat
  day : Nat
deriving DecidableEq, Repr

/-- Decimal digit character for `d < 10`. -/
def digitChar (d : Nat) : Char :=
  if d = 0 then '0' else if d = 1 then '1' else if d = 2 then '2'
  else if d = 3 then '3' else if d = 4 then '4' else if d = 5 then '5'
  else if d = 6 then '6' else if d = 7 then '7' else if d = 8 then '8' else '9'

/-- Decimal printing accumulator (`String(n)` on a nonnegative number). -/
def natToStrAux : Nat → Str → Str
  | n, acc =>
    if h : n < 10 then digitChar n :: acc
    else natToStrAux (n / 10) (digitChar (n % 10) :: acc)
decreasing_by exact Nat.div_lt_self (by omega) (by omega)

/-- The `String(n)` for a natural number. -/
def natToStr (n : Nat) : Str := natToStrAux n []

/-- The `toISODate(year, month, day)`: empty if any component is falsy, else
the year as printed with two-digit zero-padded month and day. -/
def toISODate (year month day : Nat) : Str :=
  if year = 0 ∨ month = 0 ∨ day = 0 then []
  else natToStr year ++ '-' :: padStart2 (natToStr month) ++ '-' :: padStart2 (natToStr day)

/-- Greedy `\d{1,2}`: one or two digits (two preferred), with the rest. -/
def matchUpTo2Digits : Str → Option (Str × Str)
  | [] => none
  | [a] => if isDigitC a then some ([a], []) else none
  | a :: b :: r =>
    if isDigitC a then
      if isDigitC b then some ([a, b], r) else some ([a], b :: r)
    else none

/-- Recognize a literal `20` followed by two digits (the `(20\\d{2})` group),
returning the two digit characters and the rest. -/
def matchYear20 : Str → Option (Char × Char × Str)
  | '2' :: '0' :: a :: b :: r5 =>
    if isDigitC a && isDigitC b then some (a, b, r5) else none
  | _ => none

/-- Local matcher for the ISO-like pattern: `\b`, `(20\d{2})`, a date
separator (dash or slash), `(\d{1,2})`, a date separator, `(\d{1,2})`, `\b`.
The greedy two-digit month/day runs need no backtracking: a shortened run is
followed by a digit, which can satisfy neither the separator class nor a
trailing `\b`. -/
def d1local (prev : Option Char) (s : Str) : Option (Str × Str × Str) :=
  match s with
  | '2' :: '0' :: a :: b :: rest =>
    if isDigitC a && isDigitC b && !optWord prev then
      match rest with
      | s1 :: r1 =>
        if isDateSepC s1 then
          match matchUpTo2Digits r1 with
          | some (m, r2) =>
            match r2 with
            | s2 :: r3 =>
              if isDateSepC s2 then
                match matchUpTo2Digits r3 with
                | some (d, r4) =>
                  if afterBStr d r4 then some (['2', '0', a, b], m, d) else none
                | none => none
              else none
            | [] => none
          | none => none
        else none
      | [] => none
    else none
  | _ => none

/-- Local matcher for the US-order pattern: `\b`, `(\d{1,2})`, a date
separator, `(\d{1,2})`, a date separator, `(20\d{2})`, `\b`. -/
def d2local (prev : Option Char) (s : Str) : Option (Str × Str × Str) :=
  match s with
  | c :: _ =>
    if isDigitC c && !optWord prev then
      match matchUpTo2Digits s with
      | some (m, r1) =>
        match r1 with
        | s1 :: r2 =>
          if isDateSepC s1 then
            match matchUpTo2Digits r2 with
            | some (d, r3) =>
              match r3 with
              | s2 :: r4 =>
                if isDateSepC s2 then
                  match matchYear20 r4 with
                  | some (a, b, r5) =>
                    if afterB b r5 then some (m, d, ['2', '0', a, b]) else none
                  | none => none
                else none
              | [] => none
            | none => none
          else none
        | [] => none
      | none => none
    else none
  | [] => none

/-- The twelve month names, in source order. -/
def monthsL : List Str :=
  ["january", "february", "march", "april", "may", "june", "july", "august",
   "september", "october", "november", "december"].map String.toList

/-- First month name (none is a proper prefix of another, so at most one can
match at a position) that starts the string, with its index and the rest. -/
def findMonth : List Str → Nat → Str → Option (Nat × Str)
  | [], _, _ => none
  | m :: ms, i, s => if m.isPrefixOf s then some (i, s.drop m.length) else findMonth ms (i + 1) s

/-- Does the string start with one of the ordinal tails `st|nd|rd|th`? -/
def hasOrdinalTail (s : Str) : Bool :=
  match s with
  | 's' :: 't' :: _ => true
  | 'n' :: 'd' :: _ => true
  | 'r' :: 'd' :: _ => true
  | 't' :: 'h' :: _ => true
  | _ => false

/-- Local matcher for the month-name pattern
`\b(<month names>)\s+(\d{1,2})(?:st|nd|rd|th)?,?\s*(20\d{2})?`.
Everything after the day digits is optional, and the ordinal tails, the
comma, whitespace and `20..` all start with pairwise different character
classes, so the greedy choices are final. Captures: month index (the
source's `months.indexOf`), the day digits, the optional year. -/
def d3local (prev : Option Char) (s : Str) : Option (Nat × Str × Option Str) :=
  if optWord prev then none
  else
    match findMonth monthsL 0 s with
    | none => none
    | some (mi, r1) =>
      let ws := r1.takeWhile isWsC
      if ws = [] then none
      else
        let r2 := r1.drop ws.length
        match matchUpTo2Digits r2 with
        | none => none
        | some (dstr, r3) =>
          let r4 := if hasOrdinalTail r3 then r3.drop 2 else r3
          let r5 := match r4 with
            | ',' :: rr => rr
            | _ => r4
          let r6 := r5.dropWhile isWsC
          let yo : Option Str :=
            match matchYear20 r6 with
            | some (a, b, _) => some ['2', '0', a, b]
            | none => none
          some (mi, dstr, yo)

/-- Previous calendar day (the source's `new Date(now - 24*60*60*1000)`,
modelled on calendar dates). -/
def isLeapYear (y : Nat) : Bool := (y % 4 == 0 && y % 100 != 0) || y % 400 == 0

/-- Number of days of month `m` of year `y` (months 1-12). -/
def daysInMonth (y m : Nat) : Nat :=
  if m = 2 then (if isLeapYear y then 29 else 28)
  else if m = 4 ∨ m = 6 ∨ m = 9 ∨ m = 11 then 30
  else 31

/-- The calendar date one day earlier. -/
def prevDay (d : SimpleDate) : SimpleDate :=
  if 2 ≤ d.day then ⟨d.year, d.month, d.day - 1⟩
  else if 2 ≤ d.month then ⟨d.year, d.month - 1, daysInMonth d.year (d.month - 1)⟩
  else ⟨d.year - 1, 12, 31⟩

/-- The `"today"` literal. -/
def todayK : Str := "today".toList

/-- The `"yesterday"` literal. -/
def yesterdayK : Str := "yesterday".toList

/-- The `extractDate(transcript)` with the current date explicit. -/
def extractDate (now : SimpleDate) (transcript : Str) : Str :=
  let text := toLowerStr transcript
  match scanFirst d1local none text with
  | some (y, m, d) => toISODate (strToNat y) (strToNat m) (strToNat d)
  | none =>
  match scanFirst d2local none text with
  | some (m, d, y) => toISODate (strToNat y) (strToNat m) (strToNat d)
  | none =>
  match scanFirst d3local none text with
  | some (mi, dstr, yo) =>
    let year := match yo with
      | some ys => strToNat ys
      | none => now.year
    toISODate year (mi + 1) (strToNat dstr)
  | none =>
  if includesStr text todayK then toISODate now.year now.month now.day
  else if includesStr text yesterdayK then
    let y := prevDay now
    toISODate y.year y.month y.day
  else toISODate now.year now.month now.day

/-! ## Record builder (`buildExpenseRecordFromTranscript`) -/

/-- The output entity: one expense record. -/
structure ExpenseRecord where
  date : Str
  card_name : Str
  expense_amount : Str
  expense_category : Str
  description : Str
deriving DecidableEq, Repr

/-- The `buildExpenseRecordFromTranscript(transcript)`, with the current date and
the two cached reference lists explicit. Each extractor's falsy result is
replaced by the empty string (`extractX(transcript) || ""`). -/
def buildExpenseRecordFromTranscript (now : SimpleDate) (cardNames categories : List Str)
    (transcript : Str) : ExpenseRecord :=
  { date := orEmpty (extractDate now transcript)
    card_name := orEmpty (extractCardName cardNames transcript)
    expense_amount := orEmpty (extractExpenseAmount transcript)
    expense_category := orEmpty (extractExpenseCategory categories transcript)
    description := orEmpty (extractDescription transcript) }

/-! ## State-passing embedding of the module-level cache

The source keeps the two reference lists in module-level variables read
through `getCachedAccountNames`/`getCachedExpenseCategories` (`null` before
`loadConfigLists` resolves, modelled as `none`). To state purity claims the
extractors are re-embedded in state-passing style: every read threads the
cache value through, and the definitions below mirror the statement order of
the source bodies. -/

/-- The module-level mutable cache of `parsingLogic.js`. -/
structure ConfigCache where
  cachedAccountNames : Option (List Str)
  cachedExpenseCategories : Option (List Str)
deriving DecidableEq

/-- The `getCachedAccountNames()`: `cachedAccountNames || []`. -/
def getCachedAccountNames (st : ConfigCache) : List Str :=
  st.cachedAccountNames.getD []

/-- The `getCachedExpenseCategories()`: `cachedExpenseCategories || []`. -/
def getCachedExpenseCategories (st : ConfigCache) : List Str :=
  st.cachedExpenseCategories.getD []

/-- State-passing `extractCardName`: reads the account-name cache, never
writes. -/
def extractCardNameS (st : ConfigCache) (transcript : Str) : Str × ConfigCache :=
  let (cardNames, st1) := (getCachedAccountNames st, st)
  (extractCardName cardNames transcript, st1)

/-- State-passing `extractExpenseCategory`. -/
def extractExpenseCategoryS (st : ConfigCache) (transcript : Str) : Str × ConfigCache :=
  let (categories, st1) := (getCachedExpenseCategories st, st)
  (extractExpenseCategory categories transcript, st1)

/-- State-passing `buildExpenseRecordFromTranscript`: the five extractor
calls in source order, each threading the cache. -/
def buildExpenseRecordFromTranscriptS (now : SimpleDate) (st : ConfigCache)
    (transcript : Str) : ExpenseRecord × ConfigCache :=
  let (date, st1) := (extractDate now transcript, st)
  let (cardName, st2) := extractCardNameS st1 transcript
  let (expenseAmount, st3) := (extractExpenseAmount transcript, st2)
  let (expenseCategory, st4) := extractExpenseCategoryS st3 transcript
  let (description, st5) := (extractDescription transcript, st4)
  ({ date := orEmpty date
     card_name := orEmpty cardName
     expense_amount := orEmpty expenseAmount
     expense_category := orEmpty expenseCategory
     description := orEmpty description }, st5)

/-! ## Spec-side definitions

These definitions follow the wording of the specification (not the source);
they exist to be compared with the source-derived definitions above. -/

/-- Candidate tokens as the source computes them:
`candidateNorm.split(" ").filter(Boolean)` — note: not stemmed. -/
def candTokens (candidate : Str) : List Str :=
  (splitOnChar ' ' (normalizeForMatch candidate)).filter (fun w => w ≠ [])

/-- Spec-side per-candidate score, following the specification with the one
correction the code forces: `max(phraseScore, tokenScore)` where `tokenScore`
counts the candidate's (unstemmed, normalized) tokens that occur in the
fragment's stemmed token set, divided by the candidate's token count. -/
def specCandidateScore (fragment candidate : Str) : ℚ :=
  let phrase : ℚ :=
    if includesStr (normalizeForMatch fragment) (normalizeForMatch candidate) then 1 else 0
  let ct := candTokens candidate
  let overlap := (ct.filter (fun tok => (textTokens fragment).contains tok)).length
  max phrase ((overlap : ℚ) / (ct.length : ℚ))

/-- Spec-side candidate loop step: skip candidates with zero tokens, score
with `specCandidateScore`, strictly greater replaces (so ties keep the first
candidate reaching the maximal score). -/
def specBestMatchStep (fragment : Str) (acc : Str × ℚ) (candidate : Str) : Str × ℚ :=
  if candTokens candidate = [] then acc
  else
    let score := specCandidateScore fragment candidate
    if acc.2 < score then (candidate, score) else acc

/-- Spec-side fuzzy matcher: run the spec-side loop and return the best
candidate only at or above the threshold. -/
def specBestMatch (fragment : Str) (candidates : List Str) (minScore : Option ℚ) : Str :=
  if normalizeForMatch fragment = [] then []
  else
    let r := candidates.foldl (specBestMatchStep fragment) ([], 0)
    if minScore.getD ((3 : ℚ) / 10) ≤ r.2 then r.1 else []

/-- The claim's (spec §4.8) per-candidate score as literally stated: the
token overlap counts the candidate's *stemmed* tokens. This is the reading
the code falsifies. -/
def claimCandidateScoreStemmed (fragment candidate : Str) : ℚ :=
  let phrase : ℚ :=
    if includesStr (normalizeForMatch fragment) (normalizeForMatch candidate) then 1 else 0
  let ct := (candTokens candidate).map stemToken
  let overlap := (ct.filter (fun tok => (textTokens fragment).contains tok)).length
  max phrase ((overlap : ℚ) / (ct.length : ℚ))

/-- The claim's fuzzy matcher as literally stated (stemmed candidate
tokens). -/
def claimBestMatchStemmed (fragment : Str) (candidates : List Str)
    (minScore : Option ℚ) : Str :=
  if normalizeForMatch fragment = [] then []
  else
    let r := candidates.foldl
      (fun (acc : Str × ℚ) candidate =>
        if candTokens candidate = [] then acc
        else
          let score := claimCandidateScoreStemmed fragment candidate
          if acc.2 < score then (candidate, score) else acc)
      ([], 0)
    if minScore.getD ((3 : ℚ) / 10) ≤ r.2 then r.1 else []

/-- The description extractor as the claim states it: only leading separator
characters stripped, nothing removed from the trailing end. -/
def claimDescriptionNoTrim (transcript : Str) : Str :=
  if transcript = [] then []
  else
    let lower := toLowerStr transcript
    let offset? : Option Nat :=
      match indexOfStr lower descriptionIsK with
      | some i => some (i + descriptionIsK.length)
      | none => (indexOfStr lower descriptionK).map (· + descriptionK.length)
    match offset? with
    | none => []
    | some offset => stripLeadingP isSepC (transcript.drop offset)

/-- The description extractor as amended: leading separators stripped, then
trailing whitespace (and only whitespace) trimmed. -/
def specDescriptionTrimmed (transcript : Str) : Str :=
  if transcript = [] then []
  else
    let lower := toLowerStr transcript
    let offset? : Option Nat :=
      match indexOfStr lower descriptionIsK with
      | some i => some (i + descriptionIsK.length)
      | none => (indexOfStr lower descriptionK).map (· + descriptionK.length)
    match offset? with
    | none => []
    | some offset => stripTrailingP isWsC (stripLeadingP isSepC (transcript.drop offset))

/-- The cleaned category window: text between the category keyword
(`"category is"` preferred) and the following description keyword
(`"description is"` preferred), or to end of string if none, cleaned the way
the corresponding branch of the source cleans it. -/
def categoryWindowCleaned (transcript : Str) : Str :=
  let lower := toLowerStr transcript
  let categoryOffset? : Option Nat :=
    match indexOfStr lower categoryIsK with
    | some i => some (i + categoryIsK.length)
    | none => (indexOfStr lower categoryK).map (· + categoryK.length)
  match categoryOffset? with
  | none => []
  | some categoryOffset =>
    let afterCategoryStart := lower.drop categoryOffset
    let descriptionOffset? : Option Nat :=
      match indexOfStr afterCategoryStart descriptionIsK with
      | some i => some i
      | none => indexOfStr afterCategoryStart descriptionK
    match descriptionOffset? with
    | none => cleanSeps (transcript.drop categoryOffset)
    | some descriptionOffset =>
      cleanSepsDot ((transcript.drop categoryOffset).take descriptionOffset)

/-- Decidable check for the claimed amount shape, one or more digits, one
point, exactly two digits (the regex `^\d+\.\d{2}$`). -/
def matchesAmountShape (s : Str) : Bool :=
  let intPart := s.takeWhile isDigitC
  intPart ≠ [] &&
    (match s.drop intPart.length with
     | '.' :: b1 :: b2 :: [] => isDigitC b1 && isDigitC b2
     | _ => false)

/-- The (amended) amount shape: a possibly-empty all-digit integer part, one
point, an all-digit fractional part of at least two digits. -/
def RelaxedAmountShape (s : Str) : Prop :=
  ∃ a b : Str, s = a ++ '.' :: b ∧ a.all isDigitC = true ∧ b.all isDigitC = true ∧ 2 ≤ b.length

/-- The date shape `YYYY-MM-DD`: four digits, dash, two digits, dash, two
digits. -/
def IsoDateShape (s : Str) : Prop :=
  ∃ ys ms ds : Str, s = ys ++ '-' :: (ms ++ '-' :: ds) ∧
    ys.length = 4 ∧ ms.length = 2 ∧ ds.length = 2 ∧
    ys.all isDigitC = true ∧ ms.all isDigitC = true ∧ ds.all isDigitC = true

/-! ## Helper lemmas -/

/-- The `x || ""` is the identity on strings. -/
theorem orEmpty_eq (s : Str) : orEmpty s = s := by
  unfold orEmpty
  split
  · exact (by assumption : s = []).symm
  · rfl

/-- A fold whose step either keeps the accumulated candidate or replaces it
with the current list element only ever holds the initial candidate or a list
element. -/
theorem foldl_pick (step : (Str × ℚ) → Str → (Str × ℚ))
    (hstep : ∀ acc c, (step acc c).1 = acc.1 ∨ (step acc c).1 = c) :
    ∀ (l : List Str) (acc : Str × ℚ),
      (l.foldl step acc).1 = acc.1 ∨ (l.foldl step acc).1 ∈ l := by
  intro l
  induction l with
  | nil => intro acc; left; rfl
  | cons c t ih =>
    intro acc
    simp only [List.foldl_cons]
    rcases ih (step acc c) with h | h
    · rcases hstep acc c with h2 | h2
      · left; rw [h, h2]
      · right; rw [h, h2]; exact List.mem_cons_self _ _
    · right; exact List.mem_cons_of_mem _ h

/-- The candidate-loop step keeps the accumulated best or installs the
current candidate. -/
theorem bestMatchStep_fst (nt : Str) (tks : List Str) (acc : Str × ℚ) (c : Str) :
    (bestMatchStep nt tks acc c).1 = acc.1 ∨ (bestMatchStep nt tks acc c).1 = c := by
  unfold bestMatchStep
  dsimp only
  split_ifs <;> first | (left; rfl) | (right; rfl)

/-- The fuzzy matcher returns the empty string or one of its candidates. -/
theorem bestMatchFromList_mem (t : Str) (cands : List Str) (ms : Option ℚ) :
    bestMatchFromList t cands ms = [] ∨ bestMatchFromList t cands ms ∈ cands := by
  unfold bestMatchFromList
  dsimp only
  split
  · left; rfl
  · split
    · exact foldl_pick _ (bestMatchStep_fst _ _) cands ([], 0)
    · left; rfl

/-- Fold congruence for pointwise equal step functions. -/
theorem foldl_fun_congr {α β : Type} (f g : α → β → α)
    (h : ∀ acc c, f acc c = g acc c) :
    ∀ (l : List β) (a : α), l.foldl f a = l.foldl g a := by
  intro l
  induction l with
  | nil => intro a; rfl
  | cons c t ih => intro a; simp only [List.foldl_cons, h, ih]

/-- The `splitOnChar` never returns the empty list. -/
theorem splitOnChar_ne_nil (sep : Char) (l : Str) : splitOnChar sep l ≠ [] := by
  cases l with
  | nil => simp [splitOnChar]
  | cons c rest =>
    unfold splitOnChar
    dsimp only
    split
    · simp
    · split <;> simp

/-- The head of a `dropWhile` result does not satisfy the dropped predicate. -/
theorem dropWhile_head_not (p : Char → Bool) (l : Str) :
    ∀ c, (l.dropWhile p).head? = some c → p c = false := by
  induction l with
  | nil => intro c h; simp at h
  | cons a t ih =>
    intro c h
    by_cases hp : p a = true
    · rw [List.dropWhile_cons_of_pos hp] at h
      exact ih c h
    · rw [List.dropWhile_cons_of_neg hp] at h
      simp only [List.head?_cons, Option.some.injEq] at h
      rw [← h]
      exact Bool.eq_false_iff.mpr hp

/-- The head of a nonempty normalization is not whitespace. -/
theorem normalizeForMatch_head_not_ws {s : Str} {c : Char} {rest : Str}
    (h : normalizeForMatch s = c :: rest) : isWsC c = false := by
  unfold normalizeForMatch trimStr stripLeadingP at h
  exact dropWhile_head_not isWsC _ c (by rw [h]; rfl)

/-- A candidate with nonempty normalization has at least one token. -/
theorem candTokens_ne_nil {candidate : Str} (h : normalizeForMatch candidate ≠ []) :
    candTokens candidate ≠ [] := by
  obtain ⟨c, rest, hc⟩ := List.exists_cons_of_ne_nil h
  have hws : isWsC c = false := normalizeForMatch_head_not_ws hc
  have hcsp : (c == ' ') = false := by
    cases hcc : c == ' '
    · rfl
    · exfalso
      have hce : c = ' ' := by simpa using hcc
      rw [hce] at hws
      simp [isWsC] at hws
  unfold candTokens
  rw [hc]
  unfold splitOnChar
  dsimp only
  rw [if_neg (by simp [hcsp])]
  obtain ⟨h1, t1, heq⟩ := List.exists_cons_of_ne_nil (splitOnChar_ne_nil ' ' rest)
  rw [heq]
  simp

/-- The source's candidate-loop step computes exactly the spec-side step. -/
theorem bestMatchStep_eq_spec (fragment : Str) (acc : Str × ℚ) (candidate : Str) :
    bestMatchStep (normalizeForMatch fragment) (textTokens fragment) acc candidate =
      specBestMatchStep fragment acc candidate := by
  unfold bestMatchStep specBestMatchStep specCandidateScore candTokens
  dsimp only
  by_cases hn : normalizeForMatch candidate = []
  · rw [if_pos hn, hn]
    rw [if_pos (by simp [splitOnChar])]
  · have hct : candTokens candidate ≠ [] := candTokens_ne_nil hn
    unfold candTokens at hct
    have hlen : (List.filter (fun w => decide (w ≠ []))
        (splitOnChar ' ' (normalizeForMatch candidate))).length ≠ 0 := by
      simpa using hct
    rw [if_neg hn, if_neg hct, if_pos hlen]

/-- Whitespace characters are separator characters. -/
theorem isSepC_of_isWsC {c : Char} (h : isWsC c = true) : isSepC c = true := by
  unfold isSepC
  rw [h]
  rfl

/-- Trailing stripping yields a prefix of the original list. -/
theorem stripTrailingP_prefix (p : Char → Bool) (l : Str) :
    stripTrailingP p l <+: l := by
  have h : stripTrailingP p l = l.rdropWhile p := rfl
  rw [h]
  exact List.rdropWhile_prefix _ _

/-- On a list whose head is not whitespace-leading after separator stripping,
`trim` only removes trailing whitespace. -/
theorem trimStr_stripLeading_sep (r : Str) :
    trimStr (stripLeadingP isSepC r) = stripTrailingP isWsC (stripLeadingP isSepC r) := by
  unfold trimStr
  set u := stripLeadingP isSepC r with hu
  cases hv : stripTrailingP isWsC u with
  | nil => rfl
  | cons c v =>
    have hpre : stripTrailingP isWsC u <+: u := stripTrailingP_prefix ..
    rw [hv] at hpre
    obtain ⟨t2, ht2⟩ := hpre
    have hhead : u.head? = some c := by rw [← ht2]; rfl
    have hsep : isSepC c = false := by
      exact dropWhile_head_not isSepC r c (by rw [hu] at hhead; exact hhead)
    have hws : isWsC c = false := by
      cases hwc : isWsC c with
      | false => rfl
      | true => rw [isSepC_of_isWsC hwc] at hsep; cases hsep
    unfold stripLeadingP
    rw [List.dropWhile_cons_of_neg (by rw [hws]; simp)]

/-! ## Claim theorems -/

/-- C4 (counterexample): the claim predicts that only leading separators are
stripped from the description window, but on
`"description is hi "` the source returns `"hi"` (the trailing space is
removed by `trim()`), while the only-leading-stripping reading keeps
`"hi "`. -/
theorem c4_counterexample :
    extractDescription ("description is hi ".toList) ≠
      claimDescriptionNoTrim ("description is hi ".toList) := by
  decide

/-- C4 (amended): for every transcript containing a description keyword,
`extractDescription` returns the original-case text after the matched keyword
(`"description is"` preferred over `"description"`) to end of string with
leading separator characters (whitespace, colon, comma, dash) stripped and
trailing whitespace (and only whitespace — trailing colons, commas and dashes
survive) trimmed; with no description keyword it returns the empty string. -/
theorem c4_description_window (transcript : Str) :
    extractDescription transcript = specDescriptionTrimmed transcript := by
  unfold extractDescription specDescriptionTrimmed
  dsimp only
  split
  · rfl
  · split
    · rfl
    · exact trimStr_stripLeading_sep ..

/-- C2 (counterexample): the claim scores with the candidate's *stemmed*
tokens, but the source leaves candidate tokens unstemmed. On fragment
`"groceries"` (stemmed token set `{grocery}`) and the single candidate
`"groceries misc"`, the claimed scoring gives `1/2 ≥ 0.3` and returns the
candidate, while the source scores `0` and returns `""`. -/
theorem c2_counterexample :
    bestMatchFromList ("groceries".toList) ["groceries misc".toList]
        (some ((3 : ℚ) / 10)) = [] ∧
      claimBestMatchStemmed ("groceries".toList) ["groceries misc".toList]
        (some ((3 : ℚ) / 10)) = "groceries misc".toList := by
  constructor <;> with_unfolding_all decide

/-- C2 (amended): for every fragment and candidate list, the fuzzy matcher
scores each candidate as the maximum of (a) 1 if the normalized candidate is
a contiguous substring of the normalized fragment else 0, and (b) the count
of the candidate's normalized (unstemmed) tokens that are present in the
fragment's stemmed token set, divided by the candidate's token count;
candidates whose normalization has zero tokens are skipped, the first
candidate reaching the strictly maximal score wins, and the result must clear
the threshold. -/
theorem c2_fuzzy_scoring (fragment : Str) (candidates : List Str) (ms : Option ℚ) :
    bestMatchFromList fragment candidates ms = specBestMatch fragment candidates ms := by
  unfold bestMatchFromList specBestMatch
  dsimp only
  rw [foldl_fun_congr (bestMatchStep (normalizeForMatch fragment) (textTokens fragment))
    (specBestMatchStep fragment) (bestMatchStep_eq_spec fragment) candidates ([], 0)]

/-- C5: for every transcript and account-name list, `extractCardName` returns
either an element of the list verbatim or the empty string; unmatched card
text is never echoed back. -/
theorem c5_card_name_from_list (cardNames : List Str) (transcript : Str) :
    extractCardName cardNames transcript = [] ∨
      extractCardName cardNames transcript ∈ cardNames := by
  unfold extractCardName
  dsimp only
  split
  · left; rfl
  · split
    · exact bestMatchFromList_mem ..
    · split
      · split
        · exact bestMatchFromList_mem ..
        · exact bestMatchFromList_mem ..
      · split
        · exact bestMatchFromList_mem ..
        · rw [orEmpty_eq]; exact bestMatchFromList_mem ..

/-- C6: for every transcript in which a category keyword is present and the
window (between the category keyword and the following description keyword,
or to end of string if none) is non-empty after cleaning: if the fuzzy match
against the category list succeeds the canonical list entry is returned, and
if it fails the cleaned raw window text itself is returned verbatim (not the
empty string). -/
theorem c6_category_passthrough (categories : List Str) (transcript : Str)
    (hk : indexOfStr (toLowerStr transcript) categoryK ≠ none)
    (hw : categoryWindowCleaned transcript ≠ []) :
    extractExpenseCategory categories transcript =
      (let w := categoryWindowCleaned transcript
       let m := bestMatchFromList w categories (some ((1 : ℚ) / 4))
       if m = [] then w else m) := by
  have ht : transcript ≠ [] := by
    intro he
    rw [he] at hk
    exact hk (by decide)
  unfold categoryWindowCleaned at hw ⊢
  unfold extractExpenseCategory
  dsimp only at hw ⊢
  rw [if_neg ht]
  cases h1 : indexOfStr (toLowerStr transcript) categoryIsK with
  | some i =>
    rw [h1] at hw
    dsimp only at hw ⊢
    cases h2 : indexOfStr (List.drop (i + List.length categoryIsK) (toLowerStr transcript)) descriptionIsK with
    | some j =>
      rw [h2] at hw
      dsimp only at hw ⊢
      rw [if_neg hw]
      split
      · rfl
      · rename_i hm
        rw [if_pos (not_not.mp hm)]
    | none =>
      rw [h2] at hw
      dsimp only at hw ⊢
      cases h3 : indexOfStr (List.drop (i + List.length categoryIsK) (toLowerStr transcript)) descriptionK with
      | some j =>
        rw [h3] at hw
        dsimp only at hw ⊢
        rw [if_neg hw]
        split
        · rfl
        · rename_i hm
          rw [if_pos (not_not.mp hm)]
      | none =>
        rw [h3] at hw
        dsimp only at hw ⊢
        rw [if_neg hw]
  | none =>
    rw [h1] at hw
    dsimp only at hw ⊢
    cases h1b : indexOfStr (toLowerStr transcript) categoryK with
    | none => exact absurd h1b hk
    | some i =>
      rw [h1b] at hw
      simp only [Option.map] at hw ⊢
      try dsimp only at hw ⊢
      cases h2 : indexOfStr (List.drop (i + List.length categoryK) (toLowerStr transcript)) descriptionIsK with
      | some j =>
        rw [h2] at hw
        dsimp only at hw ⊢
        rw [if_neg hw]
        split
        · rfl
        · rename_i hm
          rw [if_pos (not_not.mp hm)]
      | none =>
        rw [h2] at hw
        dsimp only at hw ⊢
        cases h3 : indexOfStr (List.drop (i + List.length categoryK) (toLowerStr transcript)) descriptionK with
        | some j =>
          rw [h3] at hw
          dsimp only at hw ⊢
          rw [if_neg hw]
          split
          · rfl
          · rename_i hm
            rw [if_pos (not_not.mp hm)]
        | none =>
          rw [h3] at hw
          dsimp only at hw ⊢
          rw [if_neg hw]

/-- C6 (witness): on `"category is new thing"` with an empty category list
the fuzzy match fails and the cleaned window `"new thing"` is passed
through verbatim. -/
theorem c6_category_passthrough_witness :
    (indexOfStr (toLowerStr ("category is new thing".toList)) categoryK ≠ none) ∧
      (categoryWindowCleaned ("category is new thing".toList) ≠ []) ∧
      extractExpenseCategory [] ("category is new thing".toList) =
        (let w := categoryWindowCleaned ("category is new thing".toList)
         let m := bestMatchFromList w [] (some ((1 : ℚ) / 4))
         if m = [] then w else m) :=
  ⟨by decide, by decide,
    c6_category_passthrough [] ("category is new thing".toList) (by decide) (by decide)⟩

/-- C7: the record builder is total and independent: it always returns the
complete record whose five fields are exactly the five extractors applied to
the same transcript (each extractor's falsy result collapsing to the empty
string changes nothing, since the only falsy string is the empty string
itself), and no extractor's result feeds into another. -/
theorem c7_record_builder_total (now : SimpleDate) (accs cats : List Str)
    (transcript : Str) :
    buildExpenseRecordFromTranscript now accs cats transcript =
      { date := extractDate now transcript
        card_name := extractCardName accs transcript
        expense_amount := extractExpenseAmount transcript
        expense_category := extractExpenseCategory cats transcript
        description := extractDescription transcript } := by
  unfold buildExpenseRecordFromTranscript
  simp only [orEmpty_eq]

/-- C8: with both reference lists empty the core still produces results, the
fuzzy matcher over an empty candidate list always returns the empty string,
and the card name is always the empty string. -/
theorem c8_empty_lists_tolerated :
    (∀ (t : Str) (ms : Option ℚ), bestMatchFromList t [] ms = []) ∧
      (∀ t : Str, extractCardName [] t = []) := by
  have hb : ∀ (t : Str) (ms : Option ℚ), bestMatchFromList t [] ms = [] := by
    intro t ms
    unfold bestMatchFromList
    dsimp only [List.foldl_nil]
    split
    · rfl
    · split <;> rfl
  refine ⟨hb, ?_⟩
  intro t
  unfold extractCardName
  dsimp only
  split
  · rfl
  · split
    · exact hb ..
    · split
      · split
        · exact hb ..
        · exact hb ..
      · split
        · exact hb ..
        · rw [orEmpty_eq]; exact hb ..

/-- C9: the record builder is deterministic and referentially transparent:
in the state-passing embedding of the module-level cache, a call returns
exactly the pure record computed from the transcript, the current date and
the two cached lists, and leaves the cache unchanged, so two calls with the
same inputs yield the same record and no call mutates the reference lists. -/
theorem c9_build_pure (now : SimpleDate) (st : ConfigCache) (transcript : Str) :
    buildExpenseRecordFromTranscriptS now st transcript =
      (buildExpenseRecordFromTranscript now (getCachedAccountNames st)
        (getCachedExpenseCategories st) transcript, st) := rfl


/-- A failing pattern-3 match attempt (dollar sign with comma grouping)
forces the pattern-5 attempt (plain dollar sign) to fail at the same
position: every `\\d` run is a `[\\d,]` run. -/
theorem pDollarLocal_none_mono (prev : Option Char) (s : Str)
    (h : pDollarLocal isDigitCommaC prev s = none) :
    pDollarLocal isDigitC prev s = none := by
  unfold pDollarLocal at h ⊢
  cases s with
  | nil => rfl
  | cons c rest =>
    dsimp only at h ⊢
    by_cases hc : (c == '$') = true
    · rw [if_pos hc] at h ⊢
      have hrun : rest.takeWhile isDigitCommaC = [] := by
        by_contra hne
        rw [if_neg hne] at h
        revert h
        split
        · split <;> simp
        · simp
      rw [if_pos hrun] at h
      cases rest with
      | nil => rfl
      | cons d r2 =>
        rw [List.takeWhile_cons] at hrun
        have hd : isDigitCommaC d = false := by
          by_contra hdd
          rw [if_pos (by revert hdd; cases isDigitCommaC d <;> simp)] at hrun
          cases hrun
        have hd5 : isDigitC d = false := by
          unfold isDigitCommaC at hd
          revert hd
          cases isDigitC d <;> simp
        rw [if_pos (by rw [List.takeWhile_cons, hd5]; simp)]
    · rw [if_neg hc] at h ⊢

/-- If the stronger local matcher fails everywhere, so does the weaker one,
position by position. -/
theorem scanFirst_none_mono {α β : Type}
    (f : Option Char → Str → Option α) (g : Option Char → Str → Option β)
    (hmono : ∀ prev s, f prev s = none → g prev s = none) :
    ∀ (prev : Option Char) (s : Str), scanFirst f prev s = none →
      scanFirst g prev s = none := by
  intro prev s
  induction s generalizing prev with
  | nil =>
    intro h
    unfold scanFirst at h ⊢
    exact hmono _ _ h
  | cons c rest ih =>
    intro h
    unfold scanFirst at h ⊢
    cases hf : f prev (c :: rest) with
    | some r => rw [hf] at h; cases h
    | none =>
      rw [hf] at h
      rw [hmono _ _ hf]
      exact ih (some c) h

/-- C10: the final plain-dollar-sign branch (pattern 5) of
`extractExpenseAmount` is unreachable as a producing branch: whenever the
earlier pattern 3 (dollar sign with optional commas) finds no match in the
search text, pattern 5 finds none either, so the pattern-5 step returns the
empty string. -/
theorem c10_pattern5_unreachable (text : Str)
    (h : matchDollarSignWithCommas text = none) :
    matchDollarSignPlain text = none ∧ amountFromP5 text = [] := by
  have h5 : matchDollarSignPlain text = none := by
    unfold matchDollarSignWithCommas at h
    unfold matchDollarSignPlain
    exact scanFirst_none_mono _ _ pDollarLocal_none_mono none text h
  refine ⟨h5, ?_⟩
  unfold amountFromP5
  rw [h5]

/-- C10 (witness): a text with no dollar sign at all. -/
theorem c10_pattern5_unreachable_witness :
    matchDollarSignWithCommas ("charge ten to card".toList) = none ∧
      (matchDollarSignPlain ("charge ten to card".toList) = none ∧
        amountFromP5 ("charge ten to card".toList) = []) :=
  ⟨by decide, c10_pattern5_unreachable ("charge ten to card".toList) (by decide)⟩


/-- Scan-level preservation: any property of every local match is a property
of the leftmost match. -/
theorem scanFirst_pres {α : Type} (f : Option Char → Str → Option α)
    (P : α → Prop) (hf : ∀ prev s r, f prev s = some r → P r) :
    ∀ (prev : Option Char) (s : Str) (r : α), scanFirst f prev s = some r → P r := by
  intro prev s
  induction s generalizing prev with
  | nil =>
    intro r h
    unfold scanFirst at h
    exact hf _ _ _ h
  | cons c rest ih =>
    intro r h
    unfold scanFirst at h
    cases hf2 : f prev (c :: rest) with
    | some r2 =>
      rw [hf2] at h
      cases h
      exact hf _ _ _ hf2
    | none =>
      rw [hf2] at h
      exact ih (some c) r h

/-- A `takeWhile` result satisfies its predicate everywhere. -/
theorem takeWhile_all (p : Char → Bool) (l : Str) : (l.takeWhile p).all p = true := by
  rw [List.all_eq_true]
  intro x hx
  exact List.mem_takeWhile_imp hx

/-- The `take` preserves `all`. -/
theorem all_take (p : Char → Bool) (l : Str) (n : Nat) (h : l.all p = true) :
    (l.take n).all p = true := by
  rw [List.all_eq_true] at h ⊢
  intro x hx
  exact h x (List.take_subset n l hx)

/-- Removing the commas from a digits-and-commas capture leaves digits. -/
theorem filter_comma_digits {g : Str} (h : g.all isDigitCommaC = true) :
    (g.filter (fun c => c != ',')).all isDigitC = true := by
  rw [List.all_eq_true] at h ⊢
  intro x hx
  rw [List.mem_filter] at hx
  have h1 := h x hx.1
  have h2 := hx.2
  unfold isDigitCommaC at h1
  cases hd : isDigitC x with
  | true => rfl
  | false =>
    exfalso
    rw [hd] at h1
    simp only [Bool.false_or, beq_iff_eq] at h1
    rw [h1] at h2
    simp at h2

/-- The cents normalization of a 1-2 digit capture: exactly two digits. -/
theorem centsOf_shape {g2o : Option Str}
    (h : ∀ g2, g2o = some g2 → (g2 ≠ [] ∧ g2.all isDigitC = true ∧ g2.length ≤ 2)) :
    (centsOf g2o).all isDigitC = true ∧ (centsOf g2o).length = 2 := by
  cases g2o with
  | none => exact ⟨by decide, rfl⟩
  | some g2 =>
    obtain ⟨hne, hdig, hlen⟩ := h g2 rfl
    unfold centsOf
    dsimp only
    by_cases h1 : g2.length = 1
    · rw [if_pos h1]
      constructor
      · rw [List.all_append, hdig]
        decide
      · simp [h1]
    · rw [if_neg h1]
      have hpos : 0 < g2.length := List.length_pos.mpr hne
      exact ⟨hdig, by omega⟩

/-- The `padStart(2, "0")` of an all-digit capture: at least two digits, all
digits. -/
theorem padStart2_digits {g : Str} (h : g.all isDigitC = true) :
    (padStart2 g).all isDigitC = true ∧ 2 ≤ (padStart2 g).length := by
  unfold padStart2
  by_cases h2 : 2 ≤ g.length
  · rw [if_pos h2]
    exact ⟨h, h2⟩
  · rw [if_neg h2]
    constructor
    · rw [List.all_append, h, Bool.and_true]
      rw [List.all_eq_true]
      intro x hx
      rw [List.mem_replicate] at hx
      rw [hx.2]
      decide
    · rw [List.length_append, List.length_replicate]
      omega

/-- The witness construction for the amended amount shape. -/
theorem relaxed_of_parts {a b : Str} (ha : a.all isDigitC = true)
    (hb : b.all isDigitC = true) (hlen : 2 ≤ b.length) :
    RelaxedAmountShape (a ++ '.' :: b) := ⟨a, b, rfl, ha, hb, hlen⟩

/-- Captures of the optional cents group of pattern 1: nonempty digits. -/
theorem p1centsGroup_caps {s ds : Str} (h : p1centsGroup s = some ds) :
    ds ≠ [] ∧ ds.all isDigitC = true := by
  unfold p1centsGroup at h
  dsimp only at h
  split at h
  · cases h
  · split at h
    · split at h
      · cases h
      · split at h
        · cases h
        · split at h
          · cases h
          · split at h
            · cases h
              exact ⟨by assumption, takeWhile_all ..⟩
            · cases h
    · cases h

/-- Captures of pattern 1: the dollars run is digits/commas, the optional
cents are nonempty digits. -/
theorem p1local_caps {prev : Option Char} {s : Str} {r : Str × Option Str}
    (h : p1local prev s = some r) :
    r.1.all isDigitCommaC = true ∧
      ∀ g2, r.2 = some g2 → (g2 ≠ [] ∧ g2.all isDigitC = true) := by
  obtain ⟨g1, g2o⟩ := r
  unfold p1local at h
  cases s with
  | nil => cases h
  | cons c s2 =>
    dsimp only at h
    split at h
    · split at h
      · cases h
      · split at h
        · split at h
          · rename_i g2c hcg
            cases h
            exact ⟨takeWhile_all .., fun g2 hg2 => by
              cases hg2
              exact p1centsGroup_caps hcg⟩
          · rename_i hcg
            cases h
            exact ⟨takeWhile_all .., fun g2 hg2 => by cases hg2⟩
        · cases h
    · cases h

/-- Captures of pattern 2: nonempty digits. -/
theorem p2local_caps {prev : Option Char} {s : Str} {ds : Str}
    (h : p2local prev s = some ds) : ds ≠ [] ∧ ds.all isDigitC = true := by
  unfold p2local at h
  cases s with
  | nil => cases h
  | cons c s2 =>
    dsimp only at h
    split at h
    · rename_i hguard
      have hc : isDigitC c = true := ((Bool.and_eq_true ..).mp hguard).1
      have hne : List.takeWhile isDigitC (c :: s2) ≠ [] := by
        rw [List.takeWhile_cons_of_pos hc]
        simp
      split at h
      · cases h
      · split at h
        · split at h
          · split at h
            · cases h
              exact ⟨hne, takeWhile_all ..⟩
            · cases h
          · split at h
            · cases h
              exact ⟨hne, takeWhile_all ..⟩
            · cases h
        · cases h
    · cases h

/-- Captures of patterns 3 and 5: class run plus optional 1-2 fractional
digits. -/
theorem pDollarLocal_caps {cls : Char → Bool} {prev : Option Char} {s : Str}
    {r : Str × Option Str} (h : pDollarLocal cls prev s = some r) :
    r.1.all cls = true ∧
      ∀ g2, r.2 = some g2 → (g2 ≠ [] ∧ g2.all isDigitC = true ∧ g2.length ≤ 2) := by
  obtain ⟨g1, g2o⟩ := r
  unfold pDollarLocal at h
  cases s with
  | nil => cases h
  | cons c rest =>
    dsimp only at h
    split at h
    · split at h
      · cases h
      · split at h
        · split at h
          · cases h
            exact ⟨takeWhile_all .., fun g2 hg2 => by cases hg2⟩
          · cases h
            refine ⟨takeWhile_all .., fun g2 hg2 => ?_⟩
            cases hg2
            refine ⟨by assumption, all_take _ _ _ (takeWhile_all ..), ?_⟩
            exact List.length_take_le _ _
        · cases h
          exact ⟨takeWhile_all .., fun g2 hg2 => by cases hg2⟩
    · cases h

/-- Elements produced by the trailing-boundary backtracking come from the
reversed run. -/
theorem tryEndsRev_mem : ∀ (rp rest r : Str), tryEndsRev rp rest = some r →
    ∀ x ∈ r, x ∈ rp := by
  intro rp
  induction rp with
  | nil => intro rest r h; cases h
  | cons c rp2 ih =>
    intro rest r h
    unfold tryEndsRev at h
    split at h
    · cases h
      intro x hx
      rw [List.mem_reverse] at hx
      exact hx
    · intro x hx
      exact List.mem_cons_of_mem c (ih (c :: rest) r h x hx)

/-- Captures of pattern 4. -/
theorem p4local_caps {prev : Option Char} {s : Str} {r : Str × Option Str}
    (h : p4local prev s = some r) :
    r.1.all isDigitCommaC = true ∧
      ∀ g2, r.2 = some g2 → (g2 ≠ [] ∧ g2.all isDigitC = true ∧ g2.length ≤ 2) := by
  obtain ⟨g1, g2o⟩ := r
  unfold p4local at h
  cases s with
  | nil => cases h
  | cons c s2 =>
    dsimp only at h
    split at h
    · split at h
      · rename_i rwf heq
        cases h
        split at heq
        · rename_i r2 hmt
          split at heq
          · rename_i hcond
            cases heq
            refine ⟨takeWhile_all .., fun g2 hg2 => ?_⟩
            cases hg2
            have h2 : 2 ≤ (List.takeWhile isDigitC r2).length :=
              of_decide_eq_true ((Bool.and_eq_true ..).mp hcond).1
            constructor
            · intro he
              have hlen0 := congrArg List.length he
              rw [List.length_take, List.length_nil] at hlen0
              omega
            · refine ⟨all_take _ _ _ (takeWhile_all ..), ?_⟩
              have := List.length_take_le 2 (List.takeWhile isDigitC r2)
              omega
          · split at heq
            · rename_i hcond
              cases heq
              refine ⟨takeWhile_all .., fun g2 hg2 => ?_⟩
              cases hg2
              have h1 : 1 ≤ (List.takeWhile isDigitC r2).length :=
                of_decide_eq_true ((Bool.and_eq_true ..).mp hcond).1
              constructor
              · intro he
                have hlen0 := congrArg List.length he
                rw [List.length_take, List.length_nil] at hlen0
                omega
              · refine ⟨all_take _ _ _ (takeWhile_all ..), ?_⟩
                have := List.length_take_le 1 (List.takeWhile isDigitC r2)
                omega
            · cases heq
        · cases heq
      · rw [Option.map_eq_some'] at h
        obtain ⟨pre, hte, hpre⟩ := h
        cases hpre
        refine ⟨?_, fun g2 hg2 => by cases hg2⟩
        rw [List.all_eq_true]
        intro x hx
        have hmem := tryEndsRev_mem _ _ _ hte x hx
        rw [List.mem_reverse] at hmem
        exact List.mem_takeWhile_imp hmem
    · cases h


/-- Captures of the pattern-1 search. -/
theorem matchDollarsPattern_caps {text : Str} {r : Str × Option Str}
    (h : matchDollarsPattern text = some r) :
    r.1.all isDigitCommaC = true ∧
      ∀ g2, r.2 = some g2 → (g2 ≠ [] ∧ g2.all isDigitC = true) :=
  scanFirst_pres p1local _ (fun _ _ _ hr => p1local_caps hr) none text r h

/-- Captures of the pattern-2 search. -/
theorem matchCentsOnly_caps {text ds : Str} (h : matchCentsOnly text = some ds) :
    ds ≠ [] ∧ ds.all isDigitC = true :=
  scanFirst_pres p2local _ (fun _ _ _ hr => p2local_caps hr) none text ds h

/-- Captures of the pattern-3 search. -/
theorem matchDollarSignWithCommas_caps {text : Str} {r : Str × Option Str}
    (h : matchDollarSignWithCommas text = some r) :
    r.1.all isDigitCommaC = true ∧
      ∀ g2, r.2 = some g2 → (g2 ≠ [] ∧ g2.all isDigitC = true ∧ g2.length ≤ 2) :=
  scanFirst_pres (pDollarLocal isDigitCommaC) _ (fun _ _ _ hr => pDollarLocal_caps hr)
    none text r h

/-- Captures of the pattern-4 search. -/
theorem matchNumberWithCommas_caps {text : Str} {r : Str × Option Str}
    (h : matchNumberWithCommas text = some r) :
    r.1.all isDigitCommaC = true ∧
      ∀ g2, r.2 = some g2 → (g2 ≠ [] ∧ g2.all isDigitC = true ∧ g2.length ≤ 2) :=
  scanFirst_pres p4local _ (fun _ _ _ hr => p4local_caps hr) none text r h

/-- Captures of the pattern-5 search. -/
theorem matchDollarSignPlain_caps {text : Str} {r : Str × Option Str}
    (h : matchDollarSignPlain text = some r) :
    r.1.all isDigitC = true ∧
      ∀ g2, r.2 = some g2 → (g2 ≠ [] ∧ g2.all isDigitC = true ∧ g2.length ≤ 2) :=
  scanFirst_pres (pDollarLocal isDigitC) _ (fun _ _ _ hr => pDollarLocal_caps hr)
    none text r h

/-- The pattern-5 step produces the empty string or a relaxed-shape amount. -/
theorem amountFromP5_shape (text : Str) :
    amountFromP5 text = [] ∨ RelaxedAmountShape (amountFromP5 text) := by
  unfold amountFromP5
  cases h : matchDollarSignPlain text with
  | none => left; rfl
  | some r =>
    obtain ⟨g1, g2o⟩ := r
    obtain ⟨hg1, hg2⟩ := matchDollarSignPlain_caps h
    right
    dsimp only
    obtain ⟨hcents, hclen⟩ := centsOf_shape hg2
    exact relaxed_of_parts hg1 hcents (le_of_eq hclen.symm)

/-- Every value the five-pattern chain can produce is empty or has the
relaxed amount shape. -/
theorem amountPatterns_shape (text : Str) :
    amountPatterns text = [] ∨ RelaxedAmountShape (amountPatterns text) := by
  unfold amountPatterns
  cases h1 : matchDollarsPattern text with
  | some r =>
    obtain ⟨g1, g2o⟩ := r
    obtain ⟨hg1, hg2⟩ := matchDollarsPattern_caps h1
    right
    dsimp only
    cases g2o with
    | none =>
      exact relaxed_of_parts (filter_comma_digits hg1) (by decide) (by decide)
    | some g2 =>
      obtain ⟨hne, hdig⟩ := hg2 g2 rfl
      obtain ⟨hpad, hplen⟩ := padStart2_digits hdig
      exact relaxed_of_parts (filter_comma_digits hg1) hpad hplen
  | none =>
    cases h2 : matchCentsOnly text with
    | some ds =>
      obtain ⟨hne, hdig⟩ := matchCentsOnly_caps h2
      right
      dsimp only
      obtain ⟨hpad, hplen⟩ := padStart2_digits hdig
      have hshape : RelaxedAmountShape (['0'] ++ '.' :: (padStart2 ds).take 2) := by
        refine relaxed_of_parts (by decide) (all_take _ _ _ hpad) ?_
        rw [List.length_take]
        omega
      exact hshape
    | none =>
      cases h3 : matchDollarSignWithCommas text with
      | some r =>
        obtain ⟨g1, g2o⟩ := r
        obtain ⟨hg1, hg2⟩ := matchDollarSignWithCommas_caps h3
        right
        dsimp only
        obtain ⟨hcents, hclen⟩ := centsOf_shape hg2
        exact relaxed_of_parts (filter_comma_digits hg1) hcents (le_of_eq hclen.symm)
      | none =>
        cases h4 : matchNumberWithCommas text with
        | some r =>
          obtain ⟨g1, g2o⟩ := r
          obtain ⟨hg1, hg2⟩ := matchNumberWithCommas_caps h4
          dsimp only
          split
          · right
            obtain ⟨hcents, hclen⟩ := centsOf_shape hg2
            exact relaxed_of_parts (filter_comma_digits hg1) hcents (le_of_eq hclen.symm)
          · exact amountFromP5_shape text
        | none => exact amountFromP5_shape text

/-- The amount extractor takes every branch into the pattern chain. -/
theorem extractExpenseAmount_shape (transcript : Str) :
    extractExpenseAmount transcript = [] ∨
      RelaxedAmountShape (extractExpenseAmount transcript) := by
  unfold extractExpenseAmount
  dsimp only
  split
  · left; rfl
  · split
    · exact amountPatterns_shape _
    · split
      · exact amountPatterns_shape _
      · exact amountPatterns_shape _

/-- C1 (counterexample): on the transcript `"$,"` pattern 3 matches with the
capture `","`, whose comma-stripping leaves an empty integer part, so the
extractor returns `".00"`: non-empty and not of the claimed
one-or-more-digits shape. -/
theorem c1_counterexample :
    ¬(extractExpenseAmount ("$,".toList) = [] ∨
      matchesAmountShape (extractExpenseAmount ("$,".toList)) = true) := by
  decide

/-- C1 (amended): for every transcript, the `expense_amount` returned by
`extractExpenseAmount` (and copied verbatim into the record by
`buildExpenseRecordFromTranscript`) is either the empty string or has exactly
one decimal point, a possibly-empty all-digit integer part with no thousands
separators, and an all-digit fractional part of at least two digits (the
integer part can be empty only for degenerate inputs like `"$,"`, and the
fractional part can exceed two digits only through the verbal
`dollars-and-cents` pattern, e.g. `"1 dollars and 123 cents"`). -/
theorem c1_amount_shape (now : SimpleDate) (accs cats : List Str) (transcript : Str) :
    (extractExpenseAmount transcript = [] ∨
      RelaxedAmountShape (extractExpenseAmount transcript)) ∧
      (buildExpenseRecordFromTranscript now accs cats transcript).expense_amount =
        extractExpenseAmount transcript := by
  refine ⟨extractExpenseAmount_shape transcript, ?_⟩
  simp only [buildExpenseRecordFromTranscript, orEmpty_eq]


/-- Every digit character is a digit. -/
theorem digitChar_digit (d : Nat) : isDigitC (digitChar d) = true := by
  unfold digitChar
  split_ifs <;> decide

/-- Digit characters have code points between 48 and 57. -/
theorem digit_bounds {a : Char} (h : isDigitC a = true) :
    48 ≤ a.toNat ∧ a.toNat ≤ 57 := by
  unfold isDigitC at h
  have := (Bool.and_eq_true ..).mp h
  exact ⟨of_decide_eq_true this.1, of_decide_eq_true this.2⟩

/-- Number of decimal digits (same recursion as `natToStrAux`). -/
def digitLen (n : Nat) : Nat :=
  if n < 10 then 1 else digitLen (n / 10) + 1
decreasing_by exact Nat.div_lt_self (by omega) (by omega)

/-- One decimal digit below 10. -/
theorem digitLen_one {n : Nat} (h : n < 10) : digitLen n = 1 := by
  unfold digitLen
  rw [if_pos h]

/-- Two decimal digits between 10 and 99. -/
theorem digitLen_two {n : Nat} (h1 : 10 ≤ n) (h2 : n ≤ 99) : digitLen n = 2 := by
  unfold digitLen
  rw [if_neg (by omega), digitLen_one (by omega)]

/-- Three decimal digits between 100 and 999. -/
theorem digitLen_three {n : Nat} (h1 : 100 ≤ n) (h2 : n ≤ 999) : digitLen n = 3 := by
  unfold digitLen
  rw [if_neg (by omega), digitLen_two (by omega) (by omega)]

/-- Four decimal digits between 1000 and 9999. -/
theorem digitLen_four {n : Nat} (h1 : 1000 ≤ n) (h2 : n ≤ 9999) : digitLen n = 4 := by
  unfold digitLen
  rw [if_neg (by omega), digitLen_three (by omega) (by omega)]

/-- At most two decimal digits below 100. -/
theorem digitLen_le_two {n : Nat} (h : n ≤ 99) : digitLen n ≤ 2 := by
  by_cases h10 : n < 10
  · rw [digitLen_one h10]
    omega
  · rw [digitLen_two (by omega) h]

/-- Length of the decimal printing. -/
theorem natToStrAux_length (n : Nat) : ∀ acc : Str,
    (natToStrAux n acc).length = digitLen n + acc.length := by
  induction n using Nat.strong_induction_on with
  | _ n ih =>
    intro acc
    unfold natToStrAux digitLen
    by_cases h : n < 10
    · rw [dif_pos h, if_pos h]
      simp only [List.length_cons]
      omega
    · rw [dif_neg h, if_neg h]
      rw [ih (n / 10) (Nat.div_lt_self (by omega) (by omega))]
      simp only [List.length_cons]
      omega

/-- The decimal printing consists of digits. -/
theorem natToStrAux_all (n : Nat) : ∀ acc : Str, acc.all isDigitC = true →
    (natToStrAux n acc).all isDigitC = true := by
  induction n using Nat.strong_induction_on with
  | _ n ih =>
    intro acc hacc
    unfold natToStrAux
    by_cases h : n < 10
    · rw [dif_pos h]
      rw [List.all_cons, digitChar_digit, hacc]
      rfl
    · rw [dif_neg h]
      refine ih (n / 10) (Nat.div_lt_self (by omega) (by omega)) _ ?_
      rw [List.all_cons, digitChar_digit, hacc]
      rfl

/-- The `String(n)` is all digits. -/
theorem natToStr_all (n : Nat) : (natToStr n).all isDigitC = true :=
  natToStrAux_all n [] rfl

/-- The `String(n)` has four characters for four-digit years. -/
theorem natToStr_length_four {n : Nat} (h1 : 1000 ≤ n) (h2 : n ≤ 9999) :
    (natToStr n).length = 4 := by
  unfold natToStr
  rw [natToStrAux_length, digitLen_four h1 h2]
  rfl

/-- The `String(n)` has at most two characters below 100. -/
theorem natToStr_length_le_two {n : Nat} (h : n ≤ 99) : (natToStr n).length ≤ 2 := by
  unfold natToStr
  rw [natToStrAux_length]
  have := digitLen_le_two h
  simp
  omega

/-- Zero-padding a 1-2 character string gives exactly two characters. -/
theorem padStart2_length_eq_two {s : Str} (h : s.length ≤ 2) :
    (padStart2 s).length = 2 := by
  unfold padStart2
  split
  · omega
  · rw [List.length_append, List.length_replicate]
    omega

/-- The shape of `toISODate` for bounded components: empty or `YYYY-MM-DD`. -/
theorem toISODate_shape {y m d : Nat} (hy1 : 1000 ≤ y) (hy2 : y ≤ 9999)
    (hm : m ≤ 99) (hd : d ≤ 99) :
    toISODate y m d = [] ∨ IsoDateShape (toISODate y m d) := by
  unfold toISODate
  split
  · left
    rfl
  · right
    refine ⟨natToStr y, padStart2 (natToStr m), padStart2 (natToStr d),
      by rw [List.append_assoc, List.cons_append],
      natToStr_length_four hy1 hy2,
      padStart2_length_eq_two (natToStr_length_le_two hm),
      padStart2_length_eq_two (natToStr_length_le_two hd),
      natToStr_all y,
      (padStart2_digits (natToStr_all m)).1,
      (padStart2_digits (natToStr_all d)).1⟩

/-- The numeric value of a 1-2 digit capture is at most 99. -/
theorem strToNat_le_99 {s : Str} (hdig : s.all isDigitC = true) (hlen : s.length ≤ 2) :
    strToNat s ≤ 99 := by
  match s with
  | [] => decide
  | [a] =>
    rw [List.all_cons, Bool.and_eq_true] at hdig
    have := digit_bounds hdig.1
    unfold strToNat
    simp only [List.foldl]
    omega
  | [a, b] =>
    rw [List.all_cons, List.all_cons, Bool.and_eq_true, Bool.and_eq_true] at hdig
    have ha := digit_bounds hdig.1
    have hb := digit_bounds hdig.2.1
    unfold strToNat
    simp only [List.foldl]
    omega
  | a :: b :: c :: t =>
    exfalso
    simp only [List.length_cons] at hlen
    omega

/-- The numeric value of a `20xx` year capture lies in 2000..2099. -/
theorem strToNat_year {a b : Char} (ha : isDigitC a = true) (hb : isDigitC b = true) :
    2000 ≤ strToNat ['2', '0', a, b] ∧ strToNat ['2', '0', a, b] ≤ 2099 := by
  have h2 : ('2' : Char).toNat = 50 := rfl
  have h0 : ('0' : Char).toNat = 48 := rfl
  have hav := digit_bounds ha
  have hbv := digit_bounds hb
  unfold strToNat
  simp only [List.foldl, h2, h0]
  omega


/-- Captures of the greedy 1-2 digit matcher. -/
theorem matchUpTo2Digits_caps {s : Str} {r : Str × Str}
    (h : matchUpTo2Digits s = some r) :
    r.1.all isDigitC = true ∧ 1 ≤ r.1.length ∧ r.1.length ≤ 2 := by
  obtain ⟨g, rest⟩ := r
  unfold matchUpTo2Digits at h
  match s with
  | [] => cases h
  | [a] =>
    dsimp only at h
    split at h
    · cases h
      rename_i ha
      exact ⟨by rw [List.all_cons, ha]; rfl, by simp, by simp⟩
    · cases h
  | a :: b :: t =>
    dsimp only at h
    split at h
    · rename_i ha
      split at h
      · rename_i hb
        cases h
        exact ⟨by rw [List.all_cons, List.all_cons, ha, hb]; rfl, by simp, by simp⟩
      · cases h
        exact ⟨by rw [List.all_cons, ha]; rfl, by simp, by simp⟩
    · cases h

/-- The `findMonth` yields an index below the running index plus the list
length. -/
theorem findMonth_lt : ∀ (ms : List Str) (i : Nat) (s : Str) (r : Nat × Str),
    findMonth ms i s = some r → r.1 < i + ms.length := by
  intro ms
  induction ms with
  | nil => intro i s r h; cases h
  | cons m ms2 ih =>
    intro i s r h
    unfold findMonth at h
    split at h
    · cases h
      simp only [List.length_cons]
      omega
    · have := ih (i + 1) s r h
      simp only [List.length_cons]
      omega

/-- Captures of the year recognizer. -/
theorem matchYear20_caps {s : Str} {r : Char × Char × Str}
    (h : matchYear20 s = some r) :
    isDigitC r.1 = true ∧ isDigitC r.2.1 = true := by
  obtain ⟨a, b, r5⟩ := r
  unfold matchYear20 at h
  split at h
  · split at h
    · rename_i hg
      cases h
      exact ⟨((Bool.and_eq_true ..).mp hg).1, ((Bool.and_eq_true ..).mp hg).2⟩
    · cases h
  · cases h

/-- Captures of the ISO-like local date matcher: a `20xx` year and 1-2 digit
month and day. -/
theorem d1local_caps {prev : Option Char} {s : Str} {r : Str × Str × Str}
    (h : d1local prev s = some r) :
    (∃ a b, r.1 = ['2', '0', a, b] ∧ isDigitC a = true ∧ isDigitC b = true) ∧
      (r.2.1.all isDigitC = true ∧ r.2.1.length ≤ 2) ∧
      (r.2.2.all isDigitC = true ∧ r.2.2.length ≤ 2) := by
  obtain ⟨y, m, d⟩ := r
  unfold d1local at h
  split at h
  · rename_i a b rest
    split at h
    · rename_i hg
      split at h
      · split at h
        · split at h
          · rename_i mg r2 hm2
            split at h
            · split at h
              · split at h
                · rename_i dg r4 hd2
                  split at h
                  · cases h
                    have hm := matchUpTo2Digits_caps hm2
                    have hd := matchUpTo2Digits_caps hd2
                    refine ⟨⟨a, b, rfl, ?_, ?_⟩, ⟨hm.1, hm.2.2⟩, ⟨hd.1, hd.2.2⟩⟩
                    · exact ((Bool.and_eq_true ..).mp ((Bool.and_eq_true ..).mp hg).1).1
                    · exact ((Bool.and_eq_true ..).mp ((Bool.and_eq_true ..).mp hg).1).2
                  · cases h
                · cases h
              · cases h
            · cases h
          · cases h
        · cases h
      · cases h
    · cases h
  · cases h

/-- Captures of the US-order local date matcher. -/
theorem d2local_caps {prev : Option Char} {s : Str} {r : Str × Str × Str}
    (h : d2local prev s = some r) :
    (r.1.all isDigitC = true ∧ r.1.length ≤ 2) ∧
      (r.2.1.all isDigitC = true ∧ r.2.1.length ≤ 2) ∧
      (∃ a b, r.2.2 = ['2', '0', a, b] ∧ isDigitC a = true ∧ isDigitC b = true) := by
  obtain ⟨m, d, y⟩ := r
  unfold d2local at h
  split at h
  · split at h
    · split at h
      · rename_i mg r1 hm2
        split at h
        · split at h
          · split at h
            · rename_i dg r3 hd2
              split at h
              · split at h
                · split at h
                  · rename_i ya yb r5 hy2
                    split at h
                    · cases h
                      have hm := matchUpTo2Digits_caps hm2
                      have hd := matchUpTo2Digits_caps hd2
                      have hyc := matchYear20_caps hy2
                      exact ⟨⟨hm.1, hm.2.2⟩, ⟨hd.1, hd.2.2⟩, ya, yb, rfl, hyc.1, hyc.2⟩
                    · cases h
                  · cases h
                · cases h
              · cases h
            · cases h
          · cases h
        · cases h
      · cases h
    · cases h
  · cases h

/-- Captures of the month-name local date matcher: a month index below 12, a
1-2 digit day, and an optional `20xx` year. -/
theorem d3local_caps {prev : Option Char} {s : Str} {r : Nat × Str × Option Str}
    (h : d3local prev s = some r) :
    r.1 < 12 ∧ (r.2.1.all isDigitC = true ∧ 1 ≤ r.2.1.length ∧ r.2.1.length ≤ 2) ∧
      (∀ ys, r.2.2 = some ys →
        ∃ a b, ys = ['2', '0', a, b] ∧ isDigitC a = true ∧ isDigitC b = true) := by
  obtain ⟨mi, dstr, yo⟩ := r
  unfold d3local at h
  dsimp only at h
  split at h
  · cases h
  · split at h
    · cases h
    · rename_i ix r1 hfm
      split at h
      · cases h
      · split at h
        · cases h
        · rename_i dg r3 hd2
          cases h
          refine ⟨?_, matchUpTo2Digits_caps hd2, ?_⟩
          · have := findMonth_lt monthsL 0 s (mi, r1) hfm
            simpa using this
          · intro ys hys
            split at hys
            · rename_i ya yb t2 hy2
              cases hys
              have hyc := matchYear20_caps hy2
              exact ⟨ya, yb, rfl, hyc.1, hyc.2⟩
            · cases hys

/-- Bounds of the month length table. -/
theorem daysInMonth_bounds (y m : Nat) :
    1 ≤ daysInMonth y m ∧ daysInMonth y m ≤ 31 := by
  unfold daysInMonth
  split_ifs <;> omega

/-- The previous calendar day of a valid date is valid, and its year drops by
at most one. -/
theorem prevDay_valid {d : SimpleDate} (hy : 1000 < d.year)
    (hm1 : 1 ≤ d.month) (hm2 : d.month ≤ 12) (hd1 : 1 ≤ d.day) (hd2 : d.day ≤ 31) :
    1000 ≤ (prevDay d).year ∧ (prevDay d).year ≤ d.year ∧
      1 ≤ (prevDay d).month ∧ (prevDay d).month ≤ 12 ∧
      1 ≤ (prevDay d).day ∧ (prevDay d).day ≤ 31 := by
  unfold prevDay
  have hdm := daysInMonth_bounds d.year (d.month - 1)
  split_ifs with h1 h2 <;>
    exact ⟨by dsimp only; omega, by dsimp only; omega, by dsimp only; omega,
      by dsimp only; omega, by dsimp only; omega, by dsimp only; omega⟩


/-- C3 (counterexample): the empty-string branch of `toISODate` is reachable
from a matched pattern: `"2023-0-5"` matches the ISO-like pattern with month
capture `"0"`, `Number("0")` is falsy, and `extractDate` returns `""` (not a
`YYYY-MM-DD` string and not the current date). -/
theorem c3_counterexample :
    extractDate ⟨2026, 10, 12⟩ ("2023-0-5".toList) = [] ∧
      scanFirst d1local none (toLowerStr ("2023-0-5".toList)) ≠ none := by
  constructor <;> decide

/-- C3 (amended): for every transcript and valid current date, `extractDate`
returns either the empty string (reachable exactly when a matched numeric or
month-name date pattern carries a zero month or day component, e.g.
`"2023-0-5"`) or a string of shape `YYYY-MM-DD` with zero-padded month and
day; and a transcript with no date-indicating text yields the current
calendar date. -/
theorem c3_date_shape (now : SimpleDate) (transcript : Str)
    (hy1 : 1000 < now.year) (hy2 : now.year ≤ 9999)
    (hm1 : 1 ≤ now.month) (hm2 : now.month ≤ 12)
    (hd1 : 1 ≤ now.day) (hd2 : now.day ≤ 31) :
    (extractDate now transcript = [] ∨ IsoDateShape (extractDate now transcript)) ∧
      ((scanFirst d1local none (toLowerStr transcript) = none ∧
        scanFirst d2local none (toLowerStr transcript) = none ∧
        scanFirst d3local none (toLowerStr transcript) = none ∧
        includesStr (toLowerStr transcript) todayK = false ∧
        includesStr (toLowerStr transcript) yesterdayK = false) →
        extractDate now transcript = toISODate now.year now.month now.day) := by
  constructor
  · unfold extractDate
    dsimp only
    cases h1 : scanFirst d1local none (toLowerStr transcript) with
    | some r =>
      obtain ⟨y, m, d⟩ := r
      obtain ⟨⟨a, b, hy, ha, hb⟩, ⟨hma, hml⟩, ⟨hda, hdl⟩⟩ :=
        scanFirst_pres d1local _ (fun _ _ _ hr => d1local_caps hr) none _ _ h1
      dsimp only
      have hyy : y = ['2', '0', a, b] := hy
      rw [hyy]
      have hyv := strToNat_year ha hb
      exact toISODate_shape (by omega) (by omega) (strToNat_le_99 hma hml)
        (strToNat_le_99 hda hdl)
    | none =>
      dsimp only
      cases h2 : scanFirst d2local none (toLowerStr transcript) with
      | some r =>
        obtain ⟨m, d, y⟩ := r
        obtain ⟨⟨hma, hml⟩, ⟨hda, hdl⟩, ⟨a, b, hy, ha, hb⟩⟩ :=
          scanFirst_pres d2local _ (fun _ _ _ hr => d2local_caps hr) none _ _ h2
        dsimp only
        have hyy : y = ['2', '0', a, b] := hy
        rw [hyy]
        have hyv := strToNat_year ha hb
        exact toISODate_shape (by omega) (by omega) (strToNat_le_99 hma hml)
          (strToNat_le_99 hda hdl)
      | none =>
        dsimp only
        cases h3 : scanFirst d3local none (toLowerStr transcript) with
        | some r =>
          obtain ⟨mi, dstr, yo⟩ := r
          obtain ⟨hmi, ⟨hda, hd1l, hdl⟩, hyo⟩ :=
            scanFirst_pres d3local _ (fun _ _ _ hr => d3local_caps hr) none _ _ h3
          dsimp only
          cases yo with
          | some ys =>
            obtain ⟨a, b, hys, ha, hb⟩ := hyo ys rfl
            have hyy : ys = ['2', '0', a, b] := hys
            rw [hyy]
            dsimp only
            have hyv := strToNat_year ha hb
            exact toISODate_shape (by omega) (by omega) (by omega)
              (strToNat_le_99 hda hdl)
          | none =>
            dsimp only
            exact toISODate_shape (by omega) (by omega) (by omega)
              (strToNat_le_99 hda hdl)
        | none =>
          dsimp only
          by_cases h4 : includesStr (toLowerStr transcript) todayK = true
          · rw [if_pos h4]
            exact toISODate_shape (by omega) (by omega) (by omega) (by omega)
          · rw [if_neg h4]
            by_cases h5 : includesStr (toLowerStr transcript) yesterdayK = true
            · rw [if_pos h5]
              have hp := prevDay_valid hy1 hm1 hm2 hd1 hd2
              exact toISODate_shape (by omega) (by omega) (by omega) (by omega)
            · rw [if_neg h5]
              exact toISODate_shape (by omega) (by omega) (by omega) (by omega)
  · intro ⟨h1, h2, h3, h4, h5⟩
    unfold extractDate
    dsimp only
    rw [h1, h2, h3, h4, h5]
    rfl

/-- C3 (witness): on a transcript with no date-indicating text the extractor
returns the current date. -/
theorem c3_date_shape_witness :
    extractDate ⟨2026, 10, 12⟩ ("hello".toList) = toISODate 2026 10 12 :=
  (c3_date_shape ⟨2026, 10, 12⟩ ("hello".toList) (by decide) (by decide) (by decide)
    (by decide) (by decide) (by decide)).2
    ⟨by decide, by decide, by decide, by decide, by decide⟩

end ExpenseParsing
